import Mathlib

/-!
# Verification of the grizzly lithium reduction-strategy engine

Shallow embedding of `src/grizzly/reduce/strategies/lithium.py` together with
the pieces of the surrounding `grizzly.reduce.strategies` base class and the
external `lithium.util` helpers that the claims depend on (those pieces are not
part of the given sources and are modelled from the specification, as marked in
their doc comments).

Conventions of the embedding:
* Python integers are `Nat`/`Int` (the estimate arithmetic can go negative, so
  the estimator values and the per-file remaining estimates live in `Int`).
* File paths and file names are `Nat`; file contents are `List Nat` (one token
  per byte/line); fingerprints are modelled as the content itself (a perfectly
  stable hash).
* Python dicts keyed by paths are association lists `List (Nat × _)`; Python
  dict equality is `dictBeq` (same keys, same values, order irrelevant).
* The generator `_LithiumStrategy.__iter__` is an explicit state machine
  (`Mach`); each suspension point where the environment (external lithium
  reducer + caller verdict) supplies data is a step function.
-/

/-! ## External helpers from `lithium.util` -/

/-- `lithium.util.divide_rounding_up`: ceiling division,
`numerator // denominator + (1 if numerator % denominator else 0)`. -/
def divide_rounding_up (n d : Nat) : Nat :=
  n / d + (if n % d = 0 then 0 else 1)

/-- Loop body of `lithium.util.largest_power_of_two_smaller_than`:
start at `i = 1` and double while `i * 2 < n`.  The fuel argument is only a
structural-termination bound; `n` units of fuel always suffice. -/
def lptstAux (n : Nat) : Nat → Nat → Nat
  | 0, i => i
  | fuel + 1, i => if i * 2 < n then lptstAux n fuel (i * 2) else i

/-- Modelled from the spec: `largest_power_of_two_smaller_than` of the external
`lithium.util` module, "largest power of two strictly less than L" (for
`n ≥ 2`; the loop returns `1` for `n ≤ 2`). -/
def largest_power_of_two_smaller_than (n : Nat) : Nat :=
  lptstAux n n 1

/-! ## `_LithiumStrategy._chunk_iters` and `_possible_iters` -/

/-- The `while chunk_size > 1` loop of `_LithiumStrategy._chunk_iters`, which
accumulates `divide_rounding_up(length, chunk_size)` while halving
`chunk_size` down to `1`.  Fuel-based for structural termination; `cs` units
of fuel always suffice (see `chunkSumFuel_congr`). -/
def chunkSumFuel (length : Nat) : Nat → Nat → Nat
  | 0, _ => 0
  | fuel + 1, cs =>
    if 1 < cs then divide_rounding_up length cs + chunkSumFuel length fuel (cs / 2)
    else 0

/-- Total iteration count contributed by the halving loop of `_chunk_iters`. -/
def chunkSum (length cs : Nat) : Nat :=
  chunkSumFuel length cs cs

/-- `_LithiumStrategy._chunk_iters(length, chunk_size)`:
`chunk_size * 3 - 1` when `length == chunk_size`, otherwise `2 * length` plus
the halving-loop sum.  Result in `Int` because the Python subtraction is
unclamped. -/
def chunk_iters (length cs : Nat) : Int :=
  if length = cs then (cs : Int) * 3 - 1
  else 2 * (length : Int) + (chunkSum length cs : Int)

/-- `_LithiumStrategy._possible_iters(length)`:
`_chunk_iters(length, largest_power_of_two_smaller_than(length) * 2) - 1`. -/
def possible_iters (length : Nat) : Int :=
  chunk_iters length (largest_power_of_two_smaller_than length * 2) - 1

/-- `CollapseEmptyBraces._possible_iters` doubles the base estimate. -/
def collapse_possible_iters (length : Nat) : Int :=
  possible_iters length * 2

/-! ### Basic facts about `divide_rounding_up` -/

theorem dru_mono (d : Nat) {a b : Nat} (h : a ≤ b) :
    divide_rounding_up a d ≤ divide_rounding_up b d := by
  rcases Nat.eq_zero_or_pos d with rfl | hd
  · simp only [divide_rounding_up, Nat.div_zero, Nat.mod_zero, Nat.zero_add]
    rcases Nat.eq_zero_or_pos a with rfl | ha
    · simp
    · have hb : ¬ (b = 0) := by omega
      have ha0 : ¬ (a = 0) := by omega
      simp [ha0, hb]
  · have hdiv : a / d ≤ b / d := Nat.div_le_div_right h
    unfold divide_rounding_up
    rcases Nat.eq_zero_or_pos (a % d) with ha | ha <;>
      rcases Nat.eq_zero_or_pos (b % d) with hb | hb
    · simp [ha, hb, hdiv]
    · have hb0 : ¬ (b % d = 0) := by omega
      simp [ha, hb0]
      omega
    · -- a has a remainder, b does not: then a / d < b / d
      have e1 : d * (a / d) + a % d = a := Nat.div_add_mod a d
      have e2 : d * (b / d) + b % d = b := Nat.div_add_mod b d
      have hlt : a / d < b / d := by
        rcases Nat.lt_or_ge (a / d) (b / d) with h1 | h1
        · exact h1
        · have hq : a / d = b / d := Nat.le_antisymm hdiv h1
          have e3 : d * (a / d) = d * (b / d) := by rw [hq]
          omega
      have ha0 : ¬ (a % d = 0) := by omega
      simp [ha0, hb]
      omega
    · have ha0 : ¬ (a % d = 0) := by omega
      have hb0 : ¬ (b % d = 0) := by omega
      simp [ha0, hb0]
      omega

theorem dru_pow_dvd {m j : Nat} (hj : j ≤ m) :
    divide_rounding_up (2 ^ m) (2 ^ j) = 2 ^ (m - j) := by
  have hdvd : 2 ^ j ∣ 2 ^ m := pow_dvd_pow 2 hj
  have hmod : 2 ^ m % 2 ^ j = 0 := Nat.mod_eq_zero_of_dvd hdvd
  have hdiv : (2 : Nat) ^ m / 2 ^ j = 2 ^ (m - j) := Nat.pow_div hj (by norm_num)
  simp [divide_rounding_up, hmod, hdiv]

/-! ### The halving loop: fuel irrelevance and closed forms -/

theorem chunkSumFuel_small (l : Nat) (hcs : ¬ 1 < cs) : ∀ f, chunkSumFuel l f cs = 0 := by
  intro f
  cases f with
  | zero => rfl
  | succ g => simp [chunkSumFuel, hcs]

theorem chunkSumFuel_congr (l : Nat) : ∀ cs f1 f2, cs ≤ f1 → cs ≤ f2 →
    chunkSumFuel l f1 cs = chunkSumFuel l f2 cs := by
  intro cs
  induction cs using Nat.strong_induction_on with
  | _ cs ih =>
    intro f1 f2 h1 h2
    rcases Nat.lt_or_ge cs 2 with hcs | hcs
    · have h : ¬ 1 < cs := by omega
      rw [chunkSumFuel_small l h, chunkSumFuel_small l h]
    · obtain ⟨g1, rfl⟩ : ∃ g, f1 = g + 1 := ⟨f1 - 1, by omega⟩
      obtain ⟨g2, rfl⟩ : ∃ g, f2 = g + 1 := ⟨f2 - 1, by omega⟩
      have hlt : 1 < cs := by omega
      simp only [chunkSumFuel, if_pos hlt]
      congr 1
      exact ih (cs / 2) (by omega) g1 g2 (by omega) (by omega)

/-- The loop equation of `_chunk_iters`: each pass adds
`divide_rounding_up length chunk_size` and halves `chunk_size`. -/
theorem chunkSum_rec (l cs : Nat) :
    chunkSum l cs =
      if 1 < cs then divide_rounding_up l cs + chunkSum l (cs / 2) else 0 := by
  unfold chunkSum
  rcases Nat.lt_or_ge cs 2 with hcs | hcs
  · have h : ¬ 1 < cs := by omega
    rw [chunkSumFuel_small l h]
    simp [h]
  · obtain ⟨g, hg⟩ : ∃ g, cs = g + 1 := ⟨cs - 1, by omega⟩
    have hlt : 1 < cs := hcs
    conv_lhs => rw [hg]
    simp only [chunkSumFuel]
    rw [← hg]
    simp only [if_pos hlt]
    congr 1
    exact chunkSumFuel_congr l (cs / 2) g (cs / 2) (by omega) (by omega)

/-- The halving-loop sum written as an explicit finite sum: the terms are
`ceil(length / 2^j)` for the successive chunk sizes `2^m, 2^(m-1), ..., 2`. -/
def sumDru (l m : Nat) : Nat :=
  ∑ j ∈ Finset.range m, divide_rounding_up l (2 ^ (j + 1))

theorem chunkSum_pow (l : Nat) : ∀ m, chunkSum l (2 ^ m) = sumDru l m := by
  intro m
  induction m with
  | zero =>
    rw [chunkSum_rec]
    simp [sumDru]
  | succ m ih =>
    rw [chunkSum_rec]
    have h1 : 1 < 2 ^ (m + 1) := by
      have := Nat.one_lt_two_pow_iff.mpr (by omega : m + 1 ≠ 0)
      omega
    have h2 : 2 ^ (m + 1) / 2 = 2 ^ m := by
      rw [Nat.pow_succ, Nat.mul_div_cancel _ (by norm_num)]
    rw [if_pos h1, h2, ih, sumDru, sumDru, Finset.sum_range_succ]
    omega

theorem sum_range_two_pow (m : Nat) :
    ∑ j ∈ Finset.range m, 2 ^ j = 2 ^ m - 1 := by
  induction m with
  | zero => simp
  | succ m ih =>
    rw [Finset.sum_range_succ, ih]
    have : 1 ≤ 2 ^ m := Nat.one_le_two_pow
    have hp : 2 ^ (m + 1) = 2 ^ m * 2 := by ring
    omega

theorem sumDru_pow_self (m : Nat) : sumDru (2 ^ m) m = 2 ^ m - 1 := by
  unfold sumDru
  have hcongr : ∀ j ∈ Finset.range m,
      divide_rounding_up (2 ^ m) (2 ^ (j + 1)) = 2 ^ (m - 1 - j) := by
    intro j hj
    have hj' : j < m := Finset.mem_range.mp hj
    rw [dru_pow_dvd (by omega)]
    congr 1
    omega
  rw [Finset.sum_congr rfl hcongr, Finset.sum_range_reflect (fun j => 2 ^ j) m,
    sum_range_two_pow]

/-- Unified closed form: for a power-of-two chunk size, `_chunk_iters` always
equals `2 * length` plus the halving-loop sum (the `length == chunk_size`
special case agrees with the general formula). -/
theorem chunk_iters_pow (l m : Nat) :
    chunk_iters l (2 ^ m) = 2 * (l : Int) + (sumDru l m : Int) := by
  unfold chunk_iters
  rcases eq_or_ne l (2 ^ m) with rfl | h
  · rw [if_pos rfl, sumDru_pow_self]
    have h1 : 1 ≤ 2 ^ m := Nat.one_le_two_pow
    have h2 : ((2 ^ m - 1 : Nat) : Int) = (2 ^ m : Nat) - 1 := by
      omega
    push_cast [h2]
    ring
  · rw [if_neg h, chunkSum_pow]

/-! ### The `largest_power_of_two_smaller_than` loop invariants -/

theorem lptstAux_pow2 (n : Nat) : ∀ fuel i, (∃ k, i = 2 ^ k) →
    ∃ k, lptstAux n fuel i = 2 ^ k := by
  intro fuel
  induction fuel with
  | zero => intro i h; exact h
  | succ f ih =>
    intro i h
    unfold lptstAux
    split
    · obtain ⟨k, rfl⟩ := h
      exact ih _ ⟨k + 1, by ring⟩
    · exact h

theorem lptstAux_lt (n : Nat) : ∀ fuel i, i < n → lptstAux n fuel i < n := by
  intro fuel
  induction fuel with
  | zero => intro i h; exact h
  | succ f ih =>
    intro i h
    unfold lptstAux
    split
    · exact ih _ (by assumption)
    · exact h

theorem lptstAux_pos (n : Nat) : ∀ fuel i, 1 ≤ i → 1 ≤ lptstAux n fuel i := by
  intro fuel
  induction fuel with
  | zero => intro i h; exact h
  | succ f ih =>
    intro i h
    unfold lptstAux
    split
    · exact ih _ (by omega)
    · exact h

theorem lptstAux_upper (n : Nat) : ∀ fuel i, 1 ≤ i → n ≤ i * 2 ^ fuel →
    n ≤ lptstAux n fuel i * 2 := by
  intro fuel
  induction fuel with
  | zero =>
    intro i hi h
    simp only [lptstAux]
    simp only [Nat.pow_zero, Nat.mul_one] at h
    omega
  | succ f ih =>
    intro i hi h
    unfold lptstAux
    split
    · apply ih _ (by omega)
      have : i * 2 ^ (f + 1) = i * 2 * 2 ^ f := by ring
      omega
    · omega

theorem lptst_pow2 (n : Nat) : ∃ k, largest_power_of_two_smaller_than n = 2 ^ k :=
  lptstAux_pow2 n n 1 ⟨0, rfl⟩

theorem lptst_lt {n : Nat} (h : 2 ≤ n) : largest_power_of_two_smaller_than n < n :=
  lptstAux_lt n n 1 (by omega)

theorem lptst_pos (n : Nat) : 1 ≤ largest_power_of_two_smaller_than n :=
  lptstAux_pos n n 1 (by omega)

theorem le_two_lptst (n : Nat) : n ≤ largest_power_of_two_smaller_than n * 2 := by
  apply lptstAux_upper n n 1 (by omega)
  have := Nat.lt_two_pow n
  omega

/-- `largest_power_of_two_smaller_than n` is the *largest* power of two
strictly below `n`. -/
theorem lptst_greatest {n : Nat} (j : Nat) (hj : 2 ^ j < n) :
    2 ^ j ≤ largest_power_of_two_smaller_than n := by
  obtain ⟨k, hk⟩ := lptst_pow2 n
  have hub : n ≤ 2 ^ k * 2 := by
    have := le_two_lptst n
    omega
  have hkk : 2 ^ k * 2 = 2 ^ (k + 1) := by ring
  have : (2 : Nat) ^ j < 2 ^ (k + 1) := by omega
  have hjk : j < k + 1 := by
    by_contra hc
    have : (2 : Nat) ^ (k + 1) ≤ 2 ^ j := Nat.pow_le_pow_right (by norm_num) (by omega)
    omega
  rw [hk]
  exact Nat.pow_le_pow_right (by norm_num) (by omega)

/-! ### Closed form, non-negativity and monotonicity of the estimator -/

theorem sumDru_mono_left (m : Nat) {a b : Nat} (h : a ≤ b) :
    sumDru a m ≤ sumDru b m := by
  unfold sumDru
  exact Finset.sum_le_sum fun j _ => dru_mono _ h

theorem sumDru_mono_right (l : Nat) {m m' : Nat} (h : m ≤ m') :
    sumDru l m ≤ sumDru l m' := by
  unfold sumDru
  apply Finset.sum_le_sum_of_subset
  exact Finset.range_subset.mpr h

theorem possible_iters_closed (L k : Nat)
    (hk : largest_power_of_two_smaller_than L = 2 ^ k) :
    possible_iters L = 2 * (L : Int) + (sumDru L (k + 1) : Int) - 1 := by
  unfold possible_iters
  rw [hk]
  have h : (2 : Nat) ^ k * 2 = 2 ^ (k + 1) := by ring
  rw [h, chunk_iters_pow]

theorem possible_iters_nonneg {L : Nat} (hL : 1 ≤ L) : 0 ≤ possible_iters L := by
  obtain ⟨k, hk⟩ := lptst_pow2 L
  rw [possible_iters_closed L k hk]
  have : (0 : Nat) ≤ sumDru L (k + 1) := Nat.zero_le _
  omega

theorem possible_iters_mono {L M : Nat} (hL : 1 ≤ L) (h : L ≤ M) :
    possible_iters L ≤ possible_iters M := by
  obtain ⟨kL, hkL⟩ := lptst_pow2 L
  obtain ⟨kM, hkM⟩ := lptst_pow2 M
  have hkk : kL ≤ kM := by
    rcases Nat.lt_or_ge L 2 with h2 | h2
    · -- L = 1: lptst 1 = 1, so kL = 0
      have hL1 : L = 1 := by omega
      subst hL1
      have : largest_power_of_two_smaller_than 1 = 1 := rfl
      rw [this] at hkL
      have : kL = 0 := by
        by_contra hc
        have : (2 : Nat) ^ 1 ≤ 2 ^ kL := Nat.pow_le_pow_right (by norm_num) (by omega)
        omega
      omega
    · have hlow : 2 ^ kL < L := by
        have := lptst_lt h2
        omega
      have hup : M ≤ 2 ^ kM * 2 := by
        have := le_two_lptst M
        omega
      have hpow : (2 : Nat) ^ kL < 2 ^ (kM + 1) := by
        have : (2 : Nat) ^ kM * 2 = 2 ^ (kM + 1) := by ring
        omega
      by_contra hc
      have : (2 : Nat) ^ (kM + 1) ≤ 2 ^ kL := Nat.pow_le_pow_right (by norm_num) (by omega)
      omega
  rw [possible_iters_closed L kL hkL, possible_iters_closed M kM hkM]
  have hs : sumDru L (kL + 1) ≤ sumDru M (kM + 1) :=
    le_trans (sumDru_mono_left _ h) (sumDru_mono_right _ (by omega))
  omega

/-- C1: for `L ≥ 1` the Chunked-Progress Estimator returns
`chunkIters(L, cs) - 1` where `cs` is twice the largest power of two strictly
below `L` (the "largest power of two strictly less than L" characterisation
holding for `L ≥ 2`), and `chunkIters(length, chunk_size)` equals
`chunk_size * 3 - 1` when `length == chunk_size` and otherwise `2 * length`
plus the sum of `ceil(length / chunk_size)` over each successive halving of
the chunk size down to `1`. -/
theorem estimator_matches_spec (L : Nat) (hL : 1 ≤ L) :
    possible_iters L
        = chunk_iters L (2 * largest_power_of_two_smaller_than L) - 1
    ∧ (2 ≤ L →
        (∃ k, largest_power_of_two_smaller_than L = 2 ^ k)
        ∧ largest_power_of_two_smaller_than L < L
        ∧ ∀ j, 2 ^ j < L → 2 ^ j ≤ largest_power_of_two_smaller_than L)
    ∧ (∀ len m, chunk_iters len (2 ^ m) =
        if len = 2 ^ m then (2 ^ m : Int) * 3 - 1
        else 2 * (len : Int) +
          ∑ j ∈ Finset.range m, (divide_rounding_up len (2 ^ (j + 1)) : Int)) := by
  refine ⟨?_, fun h2 => ⟨lptst_pow2 L, lptst_lt h2, fun j hj => lptst_greatest j hj⟩, ?_⟩
  · unfold possible_iters
    rw [Nat.mul_comm]
  · intro len m
    rcases eq_or_ne len (2 ^ m) with rfl | h
    · simp [chunk_iters]
    · rw [chunk_iters_pow, if_neg h]
      have : ((sumDru len m : Nat) : Int)
          = ∑ j ∈ Finset.range m, (divide_rounding_up len (2 ^ (j + 1)) : Int) := by
        unfold sumDru
        push_cast
        rfl
      omega

theorem estimator_matches_spec_witness :
    (1 ≤ 5)
    ∧ possible_iters 5 = chunk_iters 5 (2 * largest_power_of_two_smaller_than 5) - 1
    ∧ possible_iters 5 = 15 ∧ largest_power_of_two_smaller_than 5 = 4 :=
  ⟨by decide, (estimator_matches_spec 5 (by decide)).1, by decide, by decide⟩

/-- C8: for all lengths `L ≥ 1` the Chunked-Progress Estimator returns a
non-negative integer, and its value is monotonically non-decreasing in `L`. -/
theorem estimator_nonneg_and_mono (L : Nat) (hL : 1 ≤ L) :
    0 ≤ possible_iters L
    ∧ ∀ M, L ≤ M → possible_iters L ≤ possible_iters M :=
  ⟨possible_iters_nonneg hL, fun _ h => possible_iters_mono hL h⟩

theorem estimator_nonneg_and_mono_witness :
    (1 ≤ 3) ∧ (0 ≤ possible_iters 3 ∧ possible_iters 3 ≤ possible_iters 7)
    ∧ possible_iters 3 = 8 ∧ possible_iters 7 = 20 :=
  ⟨by decide,
   ⟨(estimator_nonneg_and_mono 3 (by decide)).1,
    (estimator_nonneg_and_mono 3 (by decide)).2 7 (by decide)⟩,
   by decide, by decide⟩

/-! ## Association-list model of Python dicts -/

/-- Python `dict[key]` lookup (`None` when the key is absent). -/
def alookup {β : Type} : List (Nat × β) → Nat → Option β
  | [], _ => none
  | kv :: rest, k => if kv.1 = k then some kv.2 else alookup rest k

/-- The keys of a dict. -/
def keysOf {β : Type} (m : List (Nat × β)) : List Nat :=
  m.map (fun kv => kv.1)

/-- In-place update of one key's value
(`self._possible_iters_remain[file] -= x`). -/
def updateAssoc (m : List (Nat × Int)) (k : Nat) (f : Int → Int) : List (Nat × Int) :=
  m.map (fun kv => if kv.1 = k then (kv.1, f kv.2) else kv)

/-- Removal of one key (`del d[k]` / `d.pop(k, None)`). -/
def eraseKey {β : Type} (m : List (Nat × β)) (k : Nat) : List (Nat × β) :=
  m.filter (fun kv => decide (kv.1 ≠ k))

/-- Python dict equality: same key set and same value at every key
(order-irrelevant). -/
def dictBeq (a b : List (Nat × List Nat)) : Bool :=
  a.all (fun kv => decide (alookup b kv.1 = some kv.2))
    && b.all (fun kv => decide (alookup a kv.1 = some kv.2))

/-- `sorted(...)` on paths. -/
def sortNat (l : List Nat) : List Nat :=
  List.insertionSort (· ≤ ·) l

/-- `list(sorted(set(...)))` on paths. -/
def sortedSet (l : List Nat) : List Nat :=
  sortNat l.dedup

/-! ## File-system model and the File-Set Scanner -/

/-- Token standing for the `DDBEGIN` reduction-boundary marker. -/
def ddBegin : Nat := 0

/-- Token standing for the `DDEND` reduction-boundary marker. -/
def ddEnd : Nat := 1

/-- Modelled from the spec: `_contains_dd` of `grizzly.reduce.strategies`
(not part of the given sources): the file content contains a matched pair of
reduction-boundary markers, i.e. a `DDBEGIN` token followed later by a
`DDEND` token. -/
def contains_dd (content : List Nat) : Bool :=
  decide (ddEnd ∈ (content.dropWhile (fun t => t ≠ ddBegin)).drop 1)

/-- The reserved metadata file names `{"test_info.json", "prefs.js"}`. -/
def reservedNames : List Nat := [0, 1]

/-- One entry of the test-case root directory tree. -/
structure FsEntry where
  path : Nat
  name : Nat
  isFile : Bool
  content : List Nat
deriving DecidableEq

/-- The per-entry test of `rescan_files_to_reduce`: a regular file whose name
is not reserved and which either is unconditionally included (`all_files`) or
contains the boundary markers. -/
def eligibleEntry (af : Bool) (e : FsEntry) : Bool :=
  e.isFile && !(decide (e.name ∈ reservedNames)) && (af || contains_dd e.content)

/-- The scan loop of `_LithiumStrategy.rescan_files_to_reduce`: the paths of
the qualifying entries, in `glob` order. -/
def rescanList (af : Bool) (root : List FsEntry) : List Nat :=
  (root.filter (eligibleEntry af)).map (fun e => e.path)

/-- The cleanup loop of `rescan_files_to_reduce`: estimate entries whose file
no longer qualifies are deleted. -/
def rescanPiter (files : List Nat) (piter : List (Nat × Int)) : List (Nat × Int) :=
  piter.filter (fun kv => decide (kv.1 ∈ files))

theorem mem_rescanList (af : Bool) (root : List FsEntry) (p : Nat) :
    p ∈ rescanList af root ↔ ∃ e ∈ root, e.path = p ∧ e.isFile = true
      ∧ ¬ e.name ∈ reservedNames ∧ (af = true ∨ contains_dd e.content = true) := by
  simp only [rescanList, List.mem_map, List.mem_filter, eligibleEntry,
    Bool.and_eq_true, Bool.or_eq_true, Bool.not_eq_true', decide_eq_false_iff_not]
  constructor
  · rintro ⟨e, ⟨he, ⟨hf, hn⟩, ho⟩, rfl⟩
    exact ⟨e, he, rfl, hf, hn, ho⟩
  · rintro ⟨e, he, rfl, hf, hn, ho⟩
    exact ⟨e, ⟨he, ⟨hf, hn⟩, ho⟩, rfl⟩

theorem alookup_cons {β : Type} (kv : Nat × β) (rest : List (Nat × β)) (k : Nat) :
    alookup (kv :: rest) k = if kv.1 = k then some kv.2 else alookup rest k := rfl

theorem alookup_rescanPiter_of_not_mem {files : List Nat} {p : Nat}
    (piter : List (Nat × Int)) (hp : ¬ p ∈ files) :
    alookup (rescanPiter files piter) p = none := by
  induction piter with
  | nil => rfl
  | cons kv rest ih =>
    unfold rescanPiter at ih ⊢
    rw [List.filter_cons]
    by_cases h : kv.1 ∈ files
    · have hk : ¬ kv.1 = p := fun hc => hp (hc ▸ h)
      rw [if_pos (by simp [h])]
      unfold alookup
      simp [hk, ih]
    · rw [if_neg (by simp [h])]
      exact ih

theorem alookup_rescanPiter_of_mem {files : List Nat} {p : Nat}
    (piter : List (Nat × Int)) (hp : p ∈ files) :
    alookup (rescanPiter files piter) p = alookup piter p := by
  induction piter with
  | nil => rfl
  | cons kv rest ih =>
    unfold rescanPiter at ih ⊢
    rw [List.filter_cons]
    by_cases h : kv.1 ∈ files
    · rw [if_pos (by simp [h])]
      unfold alookup
      by_cases hk : kv.1 = p
      · simp [hk]
      · simp [hk, ih]
    · have hk : ¬ kv.1 = p := fun hc => h (hc ▸ hp)
      rw [if_neg (by simp [h]), ih, alookup_cons, if_neg hk]

/-! ## The reduction-strategy engine state machine -/

/-- Mutable state of a `_LithiumStrategy` instance. -/
structure EngState where
  root : List FsEntry
  filesToReduce : List Nat
  piter : List (Nat × Int)
  tried : List (List (Nat × List Nat))
  dirty : Bool
  queue : List Nat
deriving DecidableEq

/-- Control position of the `__iter__` generator. -/
inductive Phase where
  | reducing (f : Nat) (tl : Nat)
  | finalYield
  | terminated
  | fatal
deriving DecidableEq

/-- A suspended `__iter__` generator: engine state plus control position. -/
structure Mach where
  st : EngState
  phase : Phase
deriving DecidableEq

/-- `len(test)` after `test.load(path)`: the element count of the file at
`path` (0 if the path is absent). -/
def fileLen (root : List FsEntry) (f : Nat) : Nat :=
  match root.find? (fun e => decide (e.path = f)) with
  | some e => e.content.length
  | none => 0

/-- `reduction.dump()` / `self._current_reducer.testcase.dump()`: overwrite
the on-disk content of file `f`. -/
def writeFile (root : List FsEntry) (f : Nat) (c : List Nat) : List FsEntry :=
  root.map (fun e => if e.path = f then { e with content := c } else e)

/-- Modelled from the spec: `_calculate_testcase_hash` of the strategy base
class (not part of the given sources): a whole-set snapshot mapping each
reducible file's path to a stable fingerprint of its current content
(fingerprints are modelled as the content itself). -/
def calcHash (af : Bool) (root : List FsEntry) : List (Nat × List Nat) :=
  (root.filter (eligibleEntry af)).map (fun e => (e.path, e.content))

/-- `self._tried.add(snapshot)`: Python set insertion. -/
def addTried (tried : List (List (Nat × List Nat))) (snap : List (Nat × List Nat)) :
    List (List (Nat × List Nat)) :=
  if snap ∈ tried then tried else tried ++ [snap]

/-- One snapshot's contribution to the skip-set seeded at the start of a
file's reduction (lines 185-193 of `lithium.py`): the snapshot's fingerprint
for the active file is used iff the snapshot with the active file's key
popped equals the current whole-set hash map with that key deleted. -/
def snapContributes (t cur : List (Nat × List Nat)) (f : Nat) : Option (List Nat) :=
  match alookup t f with
  | some v => if dictBeq (eraseKey t f) (eraseKey cur f) then some v else none
  | none => none

/-- The skip-set (`this_tc_tried`) passed to `update_tried` when reduction of
file `f` begins, given the recorded cache and the current whole-set hash. -/
def seedTried (tried : List (List (Nat × List Nat))) (cur : List (Nat × List Nat))
    (f : Nat) : List (List Nat) :=
  tried.filterMap (fun t => snapContributes t cur f)

/-- The estimate decrement applied on an accepted candidate (lines 203-207):
`removed = max(1, old_len - new_len)`; the chunk size is
`largest_power_of_two_smaller_than(removed) * 2` when `removed > 1` and
`removed` itself (i.e. `1`) otherwise. -/
def acceptDecrement (tl rl : Nat) : Int :=
  let removed := max 1 (tl - rl)
  let cs := if 1 < removed then largest_power_of_two_smaller_than removed * 2
            else removed
  chunk_iters removed cs

/-- Modelled from the spec: `purge_unserved` of the strategy base class (not
part of the given sources): remove from the root any reducible file not in
the served list. -/
def purgeUnserved (af : Bool) (root : List FsEntry) (served : List Nat) :
    List FsEntry :=
  root.filter (fun e => !(eligibleEntry af e) || decide (e.path ∈ served))

/-- Lines 212-226 of `__iter__`: after an accepted candidate with a
served-files list, purge unserved files, rescan, intersect the queue with
the surviving eligible set, and recompute the dirty flag from the file-set
size change. -/
def servedStepCore (af : Bool) (s : EngState) (served : List Nat) : EngState :=
  let root1 := purgeUnserved af s.root served
  let before := s.filesToReduce.length
  let files1 := rescanList af root1
  { s with
    root := root1
    filesToReduce := files1
    piter := rescanPiter files1 s.piter
    queue := sortedSet (s.queue.filter (fun q => decide (q ∈ files1)))
    dirty := decide (files1.length ≠ before) }

/-- The head of the `while reduce_queue:` loop and the epilogue after it:
pop the next file and load it, or — when the queue is empty — emit the final
dirty-flag yield, or terminate. -/
def nextFile (s : EngState) : Mach × List (List FsEntry) :=
  match s.queue with
  | [] =>
    if s.dirty then ({ st := s, phase := .finalYield }, [s.root])
    else ({ st := { s with dirty := false }, phase := .terminated }, [])
  | f :: rest =>
    ({ st := { s with queue := rest }, phase := .reducing f (fileLen s.root f) },
     [])

/-- One iteration of the `for reduction in self._current_reducer:` loop: the
external algorithm proposes candidate content `c` for the active file, which
is dumped to disk and yielded; `verdict`/`served` are the feedback the
caller then supplies through `update`. -/
def stepCandidate (af : Bool) (m : Mach) (c : List Nat) (verdict : Bool)
    (served : Option (List Nat)) : Mach × List (List FsEntry) :=
  match m.phase with
  | .reducing f tl =>
    let s1 : EngState := { m.st with root := writeFile m.st.root f c }
    if verdict then
      let s2 : EngState := { s1 with
        dirty := false
        piter := updateAssoc s1.piter f (fun v => v - acceptDecrement tl c.length) }
      match served with
      | none => ({ st := s2, phase := .reducing f c.length }, [s1.root])
      | some sv =>
        let s3 := servedStepCore af s2 sv
        if f ∈ s3.filesToReduce then
          ({ st := s3, phase := .reducing f c.length }, [s1.root])
        else
          let s4 : EngState := { s3 with piter := eraseKey s3.piter f }
          let n := nextFile s4
          (n.1, s1.root :: n.2)
    else
      let s2 : EngState := { s1 with
        tried := addTried s1.tried (calcHash af s1.root)
        piter := updateAssoc s1.piter f (fun v => v - 1) }
      ({ st := s2, phase := .reducing f tl }, [s1.root])
  | _ => (m, [])

/-- The `else:` arm of the `for` loop (the external algorithm's candidate
sequence is exhausted): write out the best found testcase, drop the file's
estimate entry and move to the next queued file. -/
def stepExhausted (m : Mach) (best : List Nat) : Mach × List (List FsEntry) :=
  match m.phase with
  | .reducing f _ =>
    let s1 : EngState := { m.st with root := writeFile m.st.root f best }
    let s2 : EngState := { s1 with piter := eraseKey s1.piter f }
    nextFile s2
  | _ => (m, [])

/-- The caller's verdict on the final dirty-flag yield (lines 241-243):
rejection trips the assertion (fatal); success clears the dirty flag and
terminates. -/
def stepFinal (m : Mach) (verdict : Bool) : Mach × List (List FsEntry) :=
  match m.phase with
  | .finalYield =>
    if verdict then
      ({ st := { m.st with dirty := false }, phase := .terminated }, [])
    else ({ st := m.st, phase := .fatal }, [])
  | _ => (m, [])

/-- `_LithiumStrategy.__init__`: scan the root and install the per-file
iteration estimates. -/
def initEngine (af : Bool) (root : List FsEntry) : EngState :=
  let files := rescanList af root
  { root := root
    filesToReduce := files
    piter := files.map (fun p => (p, possible_iters (fileLen root p)))
    tried := []
    dirty := false
    queue := [] }

/-- Lines 162-169 of `__iter__`: copy and sort the reduce queue, clear the
dirty flag, and enter the queue-draining loop. -/
def startIter (s : EngState) : Mach × List (List FsEntry) :=
  nextFile { s with queue := sortNat s.filesToReduce, dirty := false }

/-- `_LithiumStrategy.__len__`: the sum of the per-file remaining estimates
plus 1 when the dirty flag is set. -/
def engLen (s : EngState) : Int :=
  (s.piter.map (fun kv => kv.2)).sum + (if s.dirty then 1 else 0)

/-- The states of the `__iter__` generator reachable from construction under
some environment (candidate proposals and caller verdicts). -/
inductive Reachable (af : Bool) : Mach → Prop where
  | start (root : List FsEntry) :
      Reachable af (startIter (initEngine af root)).1
  | cand {m} (c : List Nat) (verdict : Bool) (served : Option (List Nat))
      (h : Reachable af m) : Reachable af (stepCandidate af m c verdict served).1
  | exh {m} (best : List Nat) (h : Reachable af m) :
      Reachable af (stepExhausted m best).1
  | fin {m} (verdict : Bool) (h : Reachable af m) :
      Reachable af (stepFinal m verdict).1

/-! ## The `Check` strategy variant -/

/-- `Check.__init__`: construct the base state, then truncate the file list
to at most one entry; the exposed remaining count starts at 1. -/
def checkInit (af : Bool) (root : List FsEntry) : EngState × Nat :=
  let s := initEngine af root
  ({ s with filesToReduce := s.filesToReduce.take 1 }, 1)

/-- `Check.__len__`: the `_remain` counter. -/
def checkLen (cs : EngState × Nat) : Nat := cs.2

/-- `Check.__iter__`: `self._remain = 0` runs as soon as the generator body
is entered, before any candidate is yielded, then delegates to the base
iterator. -/
def checkIter (cs : EngState × Nat) : (Mach × List (List FsEntry)) × Nat :=
  (startIter cs.1, 0)

/-- A `Check` machine paired with its `_remain` counter; the base-class step
functions never touch `_remain`. -/
def checkStepCandidate (af : Bool) (cm : Mach × Nat) (c : List Nat)
    (verdict : Bool) (served : Option (List Nat)) : (Mach × Nat) :=
  ((stepCandidate af cm.1 c verdict served).1, cm.2)

/-! ## Association-list lemmas -/

theorem alookup_eq_some_mem {β : Type} {m : List (Nat × β)} {k : Nat} {v : β}
    (h : alookup m k = some v) : (k, v) ∈ m := by
  induction m with
  | nil => simp [alookup] at h
  | cons kv rest ih =>
    rw [alookup_cons] at h
    by_cases hk : kv.1 = k
    · rw [if_pos hk] at h
      obtain ⟨a, b⟩ := kv
      simp only at hk
      simp only [Option.some_inj] at h
      subst hk
      subst h
      exact List.mem_cons_self _ _
    · rw [if_neg hk] at h
      right
      exact ih h

theorem alookup_of_mem_nodup {β : Type} {m : List (Nat × β)} {k : Nat} {v : β}
    (hn : (keysOf m).Nodup) (h : (k, v) ∈ m) : alookup m k = some v := by
  induction m with
  | nil => simp at h
  | cons kv rest ih =>
    rw [alookup_cons]
    rcases List.mem_cons.mp h with rfl | hmem
    · simp
    · have hk : ¬ kv.1 = k := by
        intro hc
        have : k ∈ keysOf rest := by
          simp only [keysOf, List.mem_map]
          exact ⟨(k, v), hmem, rfl⟩
        simp only [keysOf, List.map_cons, List.nodup_cons] at hn
        exact hn.1 (hc ▸ this)
      rw [if_neg hk]
      have hn2 : (keysOf rest).Nodup := by
        simp only [keysOf, List.map_cons, List.nodup_cons] at hn
        exact hn.2
      exact ih hn2 hmem

theorem alookup_eraseKey_self {β : Type} (m : List (Nat × β)) (k : Nat) :
    alookup (eraseKey m k) k = none := by
  induction m with
  | nil => rfl
  | cons kv rest ih =>
    unfold eraseKey at ih ⊢
    rw [List.filter_cons]
    by_cases h : kv.1 = k
    · rw [if_neg (by simp [h])]
      exact ih
    · rw [if_pos (by simp [h]), alookup_cons, if_neg h]
      exact ih

theorem alookup_eraseKey_ne {β : Type} (m : List (Nat × β)) {k p : Nat}
    (hp : p ≠ k) : alookup (eraseKey m k) p = alookup m p := by
  induction m with
  | nil => rfl
  | cons kv rest ih =>
    unfold eraseKey at ih ⊢
    rw [List.filter_cons]
    by_cases h : kv.1 = k
    · have hne : ¬ kv.1 = p := by
        rw [h]
        exact fun hc => hp hc.symm
      rw [if_neg (by simp [h]), ih, alookup_cons, if_neg hne]
    · rw [if_pos (by simp [h]), alookup_cons, alookup_cons]
      by_cases h2 : kv.1 = p
      · rw [if_pos h2, if_pos h2]
      · rw [if_neg h2, if_neg h2, ih]

theorem keysOf_eraseKey_sublist {β : Type} (m : List (Nat × β)) (k : Nat) :
    (eraseKey m k).Sublist m :=
  List.filter_sublist m

theorem nodup_keys_eraseKey {β : Type} {m : List (Nat × β)} (k : Nat)
    (hn : (keysOf m).Nodup) : (keysOf (eraseKey m k)).Nodup :=
  List.Nodup.sublist (List.Sublist.map _ (keysOf_eraseKey_sublist m k)) hn

theorem alookup_updateAssoc_self {m : List (Nat × Int)} {k : Nat} {v : Int}
    (g : Int → Int) (h : alookup m k = some v) :
    alookup (updateAssoc m k g) k = some (g v) := by
  induction m with
  | nil => simp [alookup] at h
  | cons kv rest ih =>
    rw [alookup_cons] at h
    unfold updateAssoc at ih ⊢
    rw [List.map_cons]
    by_cases hk : kv.1 = k
    · rw [if_pos hk] at h
      rw [if_pos hk, alookup_cons]
      simp only [Option.some_inj] at h
      simp [hk, h]
    · rw [if_neg hk] at h
      rw [if_neg hk, alookup_cons, if_neg hk]
      exact ih h

theorem alookup_updateAssoc_ne {m : List (Nat × Int)} {k p : Nat}
    (g : Int → Int) (hp : p ≠ k) :
    alookup (updateAssoc m k g) p = alookup m p := by
  induction m with
  | nil => rfl
  | cons kv rest ih =>
    unfold updateAssoc at ih ⊢
    rw [List.map_cons]
    by_cases hk : kv.1 = k
    · have hne : ¬ kv.1 = p := by
        rw [hk]
        exact fun hc => hp hc.symm
      simp only [if_pos hk, alookup_cons]
      simp [hne, ih]
    · rw [if_neg hk, alookup_cons, alookup_cons]
      by_cases h2 : kv.1 = p
      · rw [if_pos h2, if_pos h2]
      · rw [if_neg h2, if_neg h2, ih]

theorem keysOf_updateAssoc (m : List (Nat × Int)) (k : Nat) (g : Int → Int) :
    keysOf (updateAssoc m k g) = keysOf m := by
  induction m with
  | nil => rfl
  | cons kv rest ih =>
    unfold updateAssoc keysOf at ih ⊢
    rw [List.map_cons, List.map_cons, List.map_cons]
    by_cases hk : kv.1 = k
    · rw [if_pos hk]
      simpa using ih
    · rw [if_neg hk]
      simpa using ih

theorem updateAssoc_not_mem {m : List (Nat × Int)} {k : Nat} (g : Int → Int)
    (h : ¬ k ∈ keysOf m) : updateAssoc m k g = m := by
  induction m with
  | nil => rfl
  | cons kv rest ih =>
    unfold updateAssoc at ih ⊢
    rw [List.map_cons]
    have h1 : ¬ kv.1 = k := by
      intro hc
      exact h (by simp [keysOf, hc])
    have h2 : ¬ k ∈ keysOf rest := by
      intro hc
      exact h (by simp [keysOf] at hc ⊢; right; exact hc)
    rw [if_neg h1, ih h2]

/-! ## Python dict equality and the tried-variant cache -/

theorem dictBeq_iff {a b : List (Nat × List Nat)}
    (hna : (keysOf a).Nodup) (hnb : (keysOf b).Nodup) :
    dictBeq a b = true ↔ ∀ k, alookup a k = alookup b k := by
  unfold dictBeq
  rw [Bool.and_eq_true, List.all_eq_true, List.all_eq_true]
  constructor
  · rintro ⟨h1, h2⟩ k
    cases ha : alookup a k with
    | some v =>
      have hm := h1 (k, v) (alookup_eq_some_mem ha)
      simp only [decide_eq_true_eq] at hm
      rw [hm]
    | none =>
      cases hb : alookup b k with
      | some w =>
        have hm := h2 (k, w) (alookup_eq_some_mem hb)
        simp only [decide_eq_true_eq] at hm
        rw [ha] at hm
        exact absurd hm (by simp)
      | none => rfl
  · intro h
    refine ⟨fun kv hkv => ?_, fun kv hkv => ?_⟩
    · simp only [decide_eq_true_eq]
      rw [← h kv.1]
      exact alookup_of_mem_nodup hna (by simpa using hkv)
    · simp only [decide_eq_true_eq]
      rw [h kv.1]
      exact alookup_of_mem_nodup hnb (by simpa using hkv)

theorem snapContributes_iff {t cur : List (Nat × List Nat)} {f : Nat}
    (hnt : (keysOf t).Nodup) (hnc : (keysOf cur).Nodup) (v : List Nat) :
    snapContributes t cur f = some v ↔
      (alookup t f = some v ∧ ∀ p, p ≠ f → alookup t p = alookup cur p) := by
  cases ht : alookup t f with
  | none =>
    simp only [snapContributes, ht]
    simp
  | some w =>
    simp only [snapContributes, ht]
    have hbeq := dictBeq_iff (nodup_keys_eraseKey f hnt) (nodup_keys_eraseKey f hnc)
    by_cases hd : dictBeq (eraseKey t f) (eraseKey cur f) = true
    · rw [if_pos hd]
      constructor
      · intro hv
        simp only [Option.some_inj] at hv
        subst hv
        refine ⟨rfl, fun p hp => ?_⟩
        have hk := (hbeq.mp hd) p
        rwa [alookup_eraseKey_ne t hp, alookup_eraseKey_ne cur hp] at hk
      · rintro ⟨h1, _⟩
        exact h1
    · rw [if_neg hd]
      constructor
      · intro hv
        exact absurd hv (by simp)
      · rintro ⟨h1, h2⟩
        exfalso
        apply hd
        apply hbeq.mpr
        intro k
        by_cases hk : k = f
        · subst hk
          rw [alookup_eraseKey_self, alookup_eraseKey_self]
        · rw [alookup_eraseKey_ne t hk, alookup_eraseKey_ne cur hk]
          exact h2 k hk

theorem mem_seedTried (tried : List (List (Nat × List Nat)))
    (cur : List (Nat × List Nat)) (f : Nat) (v : List Nat) :
    v ∈ seedTried tried cur f ↔ ∃ t ∈ tried, snapContributes t cur f = some v := by
  unfold seedTried
  rw [List.mem_filterMap]

/-- The exact effect of a rejected candidate (lines 195-199 and 209-211). -/
theorem stepCandidate_reject_eq (af : Bool) (m : Mach) (f tl : Nat) (c : List Nat)
    (sv : Option (List Nat)) (hph : m.phase = .reducing f tl) :
    stepCandidate af m c false sv =
      ({ st := { m.st with
           root := writeFile m.st.root f c
           tried := addTried m.st.tried (calcHash af (writeFile m.st.root f c))
           piter := updateAssoc m.st.piter f (fun v => v - 1) }
         phase := .reducing f tl },
       [writeFile m.st.root f c]) := by
  obtain ⟨st, ph⟩ := m
  dsimp only at hph
  subst hph
  rfl

/-! ## Concrete fixtures used by witnesses and counterexamples -/

/-- Single-file root: one regular file of length 1 at path 0. -/
def exRootB : List FsEntry :=
  [ { path := 0, name := 5, isFile := true, content := [7] } ]

/-- The machine right after `__iter__` starts on `exRootB`. -/
def exMachB : Mach := (startIter (initEngine true exRootB)).1

/-- A recorded snapshot: file 0 tried as `[5]`, file 1 at `[7]`. -/
def exSnapT : List (Nat × List Nat) := [(0, [5]), (1, [7])]

/-- A current whole-set hash agreeing with `exSnapT` except on file 0. -/
def exSnapCur : List (Nat × List Nat) := [(0, [9]), (1, [7])]

/-- Two-file root: file 10 contains a marker pair, file 11 does not. -/
def exRootA : List FsEntry :=
  [ { path := 10, name := 5, isFile := true, content := [0, 7, 1] },
    { path := 11, name := 6, isFile := true, content := [9, 9] } ]

/-- C2: after a rejected candidate the whole-set fingerprint snapshot of the
(post-dump) root is recorded in the tried cache and the active file's
remaining estimate drops by exactly 1; and when reduction of a file later
begins, a recorded snapshot feeds its active-file fingerprint into the
skip-set iff its fingerprints for every file other than the active one equal
the current root state — so it predicts tried for a future state differing
only in the active file and not for one differing in a non-active file. -/
theorem tried_cache_spec (af : Bool) (m : Mach) (f tl : Nat) (c : List Nat)
    (sv : Option (List Nat)) (hph : m.phase = .reducing f tl)
    (tried : List (List (Nat × List Nat))) (t cur : List (Nat × List Nat))
    (hnt : (keysOf t).Nodup) (hnc : (keysOf cur).Nodup) :
    ((stepCandidate af m c false sv).1.st.tried
        = addTried m.st.tried (calcHash af (writeFile m.st.root f c))
      ∧ ∀ v, alookup m.st.piter f = some v →
          alookup (stepCandidate af m c false sv).1.st.piter f = some (v - 1))
    ∧ (∀ v, snapContributes t cur f = some v ↔
        (alookup t f = some v ∧ ∀ p, p ≠ f → alookup t p = alookup cur p))
    ∧ (∀ v, v ∈ seedTried tried cur f ↔
        ∃ t2 ∈ tried, snapContributes t2 cur f = some v)
    ∧ ((∃ p, p ≠ f ∧ alookup t p ≠ alookup cur p) →
        snapContributes t cur f = none) := by
  refine ⟨⟨?_, ?_⟩, fun v => snapContributes_iff hnt hnc v,
    fun v => mem_seedTried tried cur f v, ?_⟩
  · rw [stepCandidate_reject_eq af m f tl c sv hph]
  · intro v hv
    rw [stepCandidate_reject_eq af m f tl c sv hph]
    show alookup (updateAssoc m.st.piter f (fun v => v - 1)) f = some (v - 1)
    exact alookup_updateAssoc_self _ hv
  · rintro ⟨p, hp, hne⟩
    cases hs : snapContributes t cur f with
    | none => rfl
    | some w =>
      have hall := ((snapContributes_iff hnt hnc w).mp hs).2 p hp
      exact absurd hall hne

theorem tried_cache_spec_witness :
    exMachB.phase = Phase.reducing 0 1
    ∧ ((stepCandidate true exMachB [8] false none).1.st.tried
        = addTried exMachB.st.tried (calcHash true (writeFile exMachB.st.root 0 [8]))
      ∧ ∀ v, alookup exMachB.st.piter 0 = some v →
          alookup (stepCandidate true exMachB [8] false none).1.st.piter 0
            = some (v - 1))
    ∧ snapContributes exSnapT exSnapCur 0 = some [5]
    ∧ snapContributes [(0, [5]), (1, [4])] exSnapCur 0 = none :=
  ⟨by decide,
   (tried_cache_spec true exMachB 0 1 [8] none (by decide) [exSnapT] exSnapT exSnapCur
      (by decide) (by decide)).1,
   by decide, by decide⟩

/-- C7: the file-set scan includes a file iff it is a regular file with a
non-reserved name that either is unconditionally included (`all_files`) or
contains a matched marker pair; estimate entries of files absent from the
new result set are removed (entries of surviving files are retained); and
with `all_files = false` only marker-containing files qualify. -/
theorem scanner_spec (af : Bool) (root : List FsEntry) (files : List Nat)
    (piter : List (Nat × Int)) :
    (∀ p, p ∈ rescanList af root ↔ ∃ e ∈ root, e.path = p ∧ e.isFile = true
      ∧ ¬ e.name ∈ reservedNames ∧ (af = true ∨ contains_dd e.content = true))
    ∧ (∀ p, ¬ p ∈ files → alookup (rescanPiter files piter) p = none)
    ∧ (∀ p, p ∈ files → alookup (rescanPiter files piter) p = alookup piter p)
    ∧ (af = false → ∀ p, (p ∈ rescanList af root ↔ ∃ e ∈ root, e.path = p
        ∧ e.isFile = true ∧ ¬ e.name ∈ reservedNames
        ∧ contains_dd e.content = true)) := by
  refine ⟨fun p => mem_rescanList af root p,
    fun p hp => alookup_rescanPiter_of_not_mem piter hp,
    fun p hp => alookup_rescanPiter_of_mem piter hp, ?_⟩
  rintro rfl p
  rw [mem_rescanList]
  constructor
  · rintro ⟨e, he, hp, hf, hn, ho⟩
    rcases ho with h | h
    · exact absurd h (by simp)
    · exact ⟨e, he, hp, hf, hn, h⟩
  · rintro ⟨e, he, hp, hf, hn, h⟩
    exact ⟨e, he, hp, hf, hn, Or.inr h⟩

theorem scanner_spec_witness :
    rescanList false exRootA = [10]
    ∧ alookup (rescanPiter [10] [(10, 8), (11, 4)]) 11 = none
    ∧ alookup (rescanPiter [10] [(10, 8), (11, 4)]) 10 = some 8 :=
  ⟨by decide,
   (scanner_spec false exRootA [10] [(10, 8), (11, 4)]).2.1 11 (by decide),
   (scanner_spec false exRootA [10] [(10, 8), (11, 4)]).2.2.1 10 (by decide)⟩

/-! ## Accepted candidates: shape lemmas -/

/-- Lines 200-208: the state updates applied on `success` before the
served-files handling (dirty flag cleared, estimate decremented, candidate
already dumped to disk). -/
def acceptCore (s : EngState) (f tl : Nat) (c : List Nat) : EngState :=
  { s with
    root := writeFile s.root f c
    dirty := false
    piter := updateAssoc s.piter f (fun v => v - acceptDecrement tl c.length) }

/-- The exact effect of an accepted candidate without a served list. -/
theorem stepCandidate_accept_none_eq (af : Bool) (m : Mach) (f tl : Nat)
    (c : List Nat) (hph : m.phase = .reducing f tl) :
    stepCandidate af m c true none =
      ({ st := acceptCore m.st f tl c, phase := .reducing f c.length },
       [writeFile m.st.root f c]) := by
  obtain ⟨st, ph⟩ := m
  dsimp only at hph
  subst hph
  rfl

/-- The exact effect of an accepted candidate with a served list. -/
theorem stepCandidate_accept_served_eq (af : Bool) (m : Mach) (f tl : Nat)
    (c : List Nat) (sv : List Nat) (hph : m.phase = .reducing f tl) :
    stepCandidate af m c true (some sv) =
      (if f ∈ (servedStepCore af (acceptCore m.st f tl c) sv).filesToReduce then
        ({ st := servedStepCore af (acceptCore m.st f tl c) sv,
           phase := .reducing f c.length }, [writeFile m.st.root f c])
      else
        ((nextFile { servedStepCore af (acceptCore m.st f tl c) sv with
            piter := eraseKey (servedStepCore af (acceptCore m.st f tl c) sv).piter
              f }).1,
         writeFile m.st.root f c ::
           (nextFile { servedStepCore af (acceptCore m.st f tl c) sv with
             piter := eraseKey (servedStepCore af (acceptCore m.st f tl c) sv).piter
               f }).2)) := by
  obtain ⟨st, ph⟩ := m
  dsimp only at hph
  subst hph
  rfl

theorem mem_sortNat {l : List Nat} {q : Nat} : q ∈ sortNat l ↔ q ∈ l :=
  (List.perm_insertionSort _ l).mem_iff

theorem mem_sortedSet {l : List Nat} {q : Nat} : q ∈ sortedSet l ↔ q ∈ l := by
  unfold sortedSet
  rw [mem_sortNat, List.mem_dedup]

theorem mem_servedStepCore_queue (af : Bool) (s : EngState) (sv : List Nat)
    (q : Nat) :
    q ∈ (servedStepCore af s sv).queue ↔
      q ∈ s.queue ∧ q ∈ rescanList af (purgeUnserved af s.root sv) := by
  show q ∈ sortedSet (s.queue.filter fun q2 =>
      decide (q2 ∈ rescanList af (purgeUnserved af s.root sv))) ↔ _
  rw [mem_sortedSet, List.mem_filter]
  simp

theorem nextFile_phase_ne {s : EngState} {f : Nat} (h : ¬ f ∈ s.queue)
    (tl2 : Nat) : (nextFile s).1.phase ≠ .reducing f tl2 := by
  cases hq : s.queue with
  | nil =>
    simp only [nextFile, hq]
    split <;> simp
  | cons g rest =>
    have hg : ¬ g = f := fun hc => h (hq ▸ (hc ▸ List.mem_cons_self g rest))
    simp only [nextFile, hq]
    intro hc
    injection hc with h1 h2
    exact hg h1

/-- C3: when a candidate is accepted with a served-files list, every
reducible file not in the list is removed from the root, the file set is
rescanned from the purged root, the outstanding reduce queue is intersected
with the new eligible set, the dirty flag records exactly whether the
file-set size changed, and if the active file was itself purged its
reduction is aborted (the machine is never again reducing that file this
pass) and the engine moves on to the head of the intersected queue. -/
theorem accept_served_spec (af : Bool) (m : Mach) (f tl : Nat) (c : List Nat)
    (sv : List Nat) (s : EngState) (hph : m.phase = .reducing f tl) :
    (∀ e ∈ s.root, eligibleEntry af e = true → ¬ e.path ∈ sv →
        ¬ e ∈ purgeUnserved af s.root sv)
    ∧ (servedStepCore af s sv).root = purgeUnserved af s.root sv
    ∧ (servedStepCore af s sv).filesToReduce
        = rescanList af (purgeUnserved af s.root sv)
    ∧ (∀ q, q ∈ (servedStepCore af s sv).queue ↔
        q ∈ s.queue ∧ q ∈ rescanList af (purgeUnserved af s.root sv))
    ∧ (servedStepCore af s sv).dirty
        = decide ((rescanList af (purgeUnserved af s.root sv)).length
            ≠ s.filesToReduce.length)
    ∧ (f ∈ (servedStepCore af (acceptCore m.st f tl c) sv).filesToReduce →
        (stepCandidate af m c true (some sv)).1
          = ⟨servedStepCore af (acceptCore m.st f tl c) sv,
             .reducing f c.length⟩)
    ∧ (¬ f ∈ (servedStepCore af (acceptCore m.st f tl c) sv).filesToReduce →
        (stepCandidate af m c true (some sv)).1
          = (nextFile { servedStepCore af (acceptCore m.st f tl c) sv with
              piter := eraseKey
                (servedStepCore af (acceptCore m.st f tl c) sv).piter f }).1
        ∧ ∀ tl2, (stepCandidate af m c true (some sv)).1.phase
            ≠ .reducing f tl2)
    ∧ (∀ s2 : EngState, ∀ g rest, s2.queue = g :: rest →
        (nextFile s2).1.phase = .reducing g (fileLen s2.root g)
        ∧ (nextFile s2).1.st.queue = rest) := by
  refine ⟨?_, rfl, rfl, fun q => mem_servedStepCore_queue af s sv q, rfl, ?_, ?_, ?_⟩
  · intro e he helig hsv hmem
    have hpred := (List.mem_filter.mp hmem).2
    rcases Bool.or_eq_true _ _ |>.mp hpred with h | h
    · rw [helig] at h
      exact absurd h (by simp)
    · exact hsv (by simpa using h)
  · intro hf
    rw [stepCandidate_accept_served_eq af m f tl c sv hph, if_pos hf]
  · intro hf
    rw [stepCandidate_accept_served_eq af m f tl c sv hph, if_neg hf]
    refine ⟨rfl, fun tl2 => ?_⟩
    apply nextFile_phase_ne
    intro hq
    have hq2 : f ∈ (servedStepCore af (acceptCore m.st f tl c) sv).queue := hq
    rw [mem_servedStepCore_queue] at hq2
    exact hf hq2.2
  · intro s2 g rest hq
    constructor
    · simp [nextFile, hq]
    · simp [nextFile, hq]

/-- The machine right after `__iter__` starts on `exRootA` (reducing file 10,
which has 3 elements). -/
def exMachA : Mach := (startIter (initEngine true exRootA)).1

theorem accept_served_spec_witness :
    exMachA.phase = Phase.reducing 10 3
    ∧ ((stepCandidate true exMachA [0, 1] true (some [10])).1
        = ⟨servedStepCore true (acceptCore exMachA.st 10 3 [0, 1]) [10],
           Phase.reducing 10 2⟩)
    ∧ (stepCandidate true exMachA [0, 1] true (some [10])).1.st.filesToReduce = [10]
    ∧ (stepCandidate true exMachA [0, 1] true (some [10])).1.st.dirty = true
    ∧ (stepCandidate true exMachA [0, 1] true (some [10])).1.st.queue = []
    ∧ ¬ FsEntry.mk 11 6 true [9, 9]
        ∈ (stepCandidate true exMachA [0, 1] true (some [10])).1.st.root :=
  ⟨by decide,
   (accept_served_spec true exMachA 10 3 [0, 1] [10] exMachA.st (by decide)).2.2.2.2.2.1
     (by decide),
   by decide, by decide, by decide, by decide⟩

/-- C4: if the dirty flag is still set once the reduce queue drains, the
engine yields the current root contents exactly once more; a rejection
verdict on that final yield is fatal (the assertion at line 242), not a
recoverable condition, while a success verdict terminates the engine with
the dirty flag cleared; terminal states emit nothing further. -/
theorem final_dirty_yield_spec (s : EngState) (m : Mach)
    (hq : s.queue = []) (hd : s.dirty = true) (hph : m.phase = .finalYield) :
    nextFile s = ({ st := s, phase := .finalYield }, [s.root])
    ∧ stepFinal m false = ({ st := m.st, phase := .fatal }, [])
    ∧ stepFinal m true
        = ({ st := { m.st with dirty := false }, phase := .terminated }, [])
    ∧ (stepFinal m true).1.st.dirty = false
    ∧ (∀ m2 : Mach, m2.phase = .terminated ∨ m2.phase = .fatal →
        (∀ af c b sv2, stepCandidate af m2 c b sv2 = (m2, []))
        ∧ (∀ best, stepExhausted m2 best = (m2, []))
        ∧ (∀ b, stepFinal m2 b = (m2, []))) := by
  obtain ⟨st2, ph⟩ := m
  dsimp only at hph
  subst hph
  refine ⟨?_, rfl, rfl, rfl, ?_⟩
  · simp [nextFile, hq, hd]
  · rintro ⟨st3, ph3⟩ (h | h) <;> dsimp only at h <;> subst h <;>
      exact ⟨fun af c b sv2 => rfl, fun best => rfl, fun b => rfl⟩

/-- A dirty state with a drained queue, and the corresponding machine at the
final yield. -/
def exDirtyState : EngState :=
  { root := exRootA, filesToReduce := [10], piter := [], tried := []
    dirty := true, queue := [] }

/-- The machine suspended at the final dirty-flag yield. -/
def exFinalMach : Mach := { st := exDirtyState, phase := .finalYield }

theorem final_dirty_yield_spec_witness :
    nextFile exDirtyState = ({ st := exDirtyState, phase := .finalYield },
      [exDirtyState.root])
    ∧ stepFinal exFinalMach false
        = ({ st := exFinalMach.st, phase := .fatal }, [])
    ∧ (stepFinal exFinalMach true).1.st.dirty = false :=
  ⟨(final_dirty_yield_spec exDirtyState exFinalMach rfl rfl rfl).1,
   (final_dirty_yield_spec exDirtyState exFinalMach rfl rfl rfl).2.1,
   (final_dirty_yield_spec exDirtyState exFinalMach rfl rfl rfl).2.2.2.1⟩

/-! ## C5: the decrement applied on acceptance -/

/-- The decrement that the specification's reading of 4.1 prescribes on an
accepted candidate: the chunk-halving formula with its standard starting
chunk size, applied to the removed size `old length - accepted length`. -/
def claimedAcceptDecrement (tl rl : Nat) : Int :=
  chunk_iters (tl - rl) (2 * largest_power_of_two_smaller_than (tl - rl))

/-- Single-file root of length 2 used for the C5 counterexample. -/
def exRoot2 : List FsEntry :=
  [ { path := 0, name := 5, isFile := true, content := [9, 9] } ]

/-- The machine right after `__iter__` starts on `exRoot2`. -/
def exMach2 : Mach := (startIter (initEngine true exRoot2)).1

/-- C5 counterexample: accepting a candidate of length 1 for a file of
length 2 removes 1 element; the code decrements the estimate by
`_chunk_iters(1, 1) = 2` (the chunk size stays at `removed = 1`), while the
4.1 formula applied with length 1 uses chunk size
`2 * largest_power_of_two_smaller_than(1) = 2` and gives
`_chunk_iters(1, 2) = 3`. -/
theorem accept_decrement_counterexample :
    exMach2.phase = Phase.reducing 0 2
    ∧ alookup exMach2.st.piter 0 = some 4
    ∧ alookup (stepCandidate true exMach2 [9] true none).1.st.piter 0 = some 2
    ∧ claimedAcceptDecrement 2 1 = 3
    ∧ acceptDecrement 2 1 = 2
    ∧ some ((4 : Int) - claimedAcceptDecrement 2 1)
        ≠ alookup (stepCandidate true exMach2 [9] true none).1.st.piter 0 := by
  decide

/-- C5 (amended): on acceptance the dirty flag is cleared, the tracked
current length becomes the accepted candidate's length, the candidate is on
disk, and the file's estimate is decremented by `_chunk_iters(removed, cs)`
where `removed = max(1, old length - accepted length)` and `cs` is
`largest_power_of_two_smaller_than(removed) * 2` for `removed > 1` but `1`
(yielding a decrement of exactly 2) when `removed = 1`. -/
theorem accept_step_spec (af : Bool) (m : Mach) (f tl : Nat) (c : List Nat)
    (hph : m.phase = .reducing f tl) :
    (stepCandidate af m c true none).1.st.dirty = false
    ∧ (stepCandidate af m c true none).1.phase = .reducing f c.length
    ∧ (stepCandidate af m c true none).1.st.root = writeFile m.st.root f c
    ∧ ∀ v, alookup m.st.piter f = some v →
        alookup (stepCandidate af m c true none).1.st.piter f
          = some (v - chunk_iters (max 1 (tl - c.length))
              (if 1 < max 1 (tl - c.length) then
                largest_power_of_two_smaller_than (max 1 (tl - c.length)) * 2
              else 1)) := by
  rw [stepCandidate_accept_none_eq af m f tl c hph]
  refine ⟨rfl, rfl, rfl, fun v hv => ?_⟩
  show alookup (updateAssoc m.st.piter f
    (fun v => v - acceptDecrement tl c.length)) f = _
  rw [alookup_updateAssoc_self _ hv]
  unfold acceptDecrement
  by_cases h : 1 < max 1 (tl - c.length)
  · simp [h]
  · have h1 : max 1 (tl - c.length) = 1 := by omega
    simp [h, h1]

theorem accept_step_spec_witness :
    (stepCandidate true exMach2 [9] true none).1.st.dirty = false
    ∧ (stepCandidate true exMach2 [9] true none).1.phase = Phase.reducing 0 1
    ∧ alookup (stepCandidate true exMach2 [9] true none).1.st.piter 0
        = some ((4 : Int) - chunk_iters 1 1) :=
  ⟨(accept_step_spec true exMach2 0 2 [9] (by decide)).1,
   (accept_step_spec true exMach2 0 2 [9] (by decide)).2.1,
   by decide⟩

/-! ## C9: the estimates are not clamped -/

/-- `exRootB`'s machine after one, two and three rejected candidates: the
initial estimate 2 reaches -1. -/
def exMach9a : Mach := (stepCandidate true exMachB [8] false none).1

def exMach9b : Mach := (stepCandidate true exMach9a [8] false none).1

def exMach9c : Mach := (stepCandidate true exMach9b [8] false none).1

/-- C9 counterexample: the per-file estimate is not clamped at zero — a
reachable run (three rejections on a file with initial estimate 2) drives it
to -1. -/
theorem estimate_clamp_counterexample :
    Reachable true exMach9c
    ∧ alookup exMachB.st.piter 0 = some 2
    ∧ alookup exMach9c.st.piter 0 = some (-1)
    ∧ ¬ (0 : Int) ≤ (-1 : Int) :=
  ⟨Reachable.cand [8] false none (Reachable.cand [8] false none
      (Reachable.cand [8] false none (Reachable.start exRootB))),
   by decide, by decide, by decide⟩

/-- C9 (amended): per-file estimates are decremented with no clamping — a
rejection subtracts exactly 1 even from an estimate of 0, which then becomes
negative. -/
theorem estimate_unclamped_spec (af : Bool) (m : Mach) (f tl : Nat)
    (c : List Nat) (sv : Option (List Nat)) (v : Int)
    (hph : m.phase = .reducing f tl) (hv : alookup m.st.piter f = some v) :
    alookup (stepCandidate af m c false sv).1.st.piter f = some (v - 1)
    ∧ (v = 0 →
        alookup (stepCandidate af m c false sv).1.st.piter f = some (-1)) := by
  have h1 : alookup (stepCandidate af m c false sv).1.st.piter f = some (v - 1) := by
    rw [stepCandidate_reject_eq af m f tl c sv hph]
    show alookup (updateAssoc m.st.piter f (fun v => v - 1)) f = some (v - 1)
    exact alookup_updateAssoc_self _ hv
  refine ⟨h1, fun hv0 => ?_⟩
  rw [h1, hv0]
  norm_num

theorem estimate_unclamped_spec_witness :
    alookup (stepCandidate true exMach9b [8] false none).1.st.piter 0
      = some (0 - 1)
    ∧ ((0 : Int) = 0 →
        alookup (stepCandidate true exMach9b [8] false none).1.st.piter 0
          = some (-1)) :=
  estimate_unclamped_spec true exMach9b 0 1 [8] none 0 (by decide) (by decide)

/-- C10: the Check variant's `__len__` is 1 from construction until
iteration begins and 0 from the moment `__iter__` is entered — before any
candidate is yielded and regardless of later verdicts (the base-class steps
never touch the counter) — and the file set it operates on is truncated to
at most one file at construction. -/
theorem check_spec (af : Bool) (root : List FsEntry) (cm : Mach × Nat)
    (c : List Nat) (verdict : Bool) (sv : Option (List Nat)) :
    checkLen (checkInit af root) = 1
    ∧ (checkInit af root).1.filesToReduce
        = (initEngine af root).filesToReduce.take 1
    ∧ (checkInit af root).1.filesToReduce.length ≤ 1
    ∧ (checkIter (checkInit af root)).2 = 0
    ∧ (checkStepCandidate af cm c verdict sv).2 = cm.2 := by
  refine ⟨rfl, rfl, ?_, rfl, rfl⟩
  show ((initEngine af root).filesToReduce.take 1).length ≤ 1
  rw [List.length_take]
  omega

/-! ## C6: the length estimate -/

/-- The sum of the per-file remaining estimates. -/
def piterSum (m : List (Nat × Int)) : Int :=
  (m.map (fun kv => kv.2)).sum

theorem piterSum_cons (kv : Nat × Int) (l : List (Nat × Int)) :
    piterSum (kv :: l) = kv.2 + piterSum l := by
  simp [piterSum]

theorem updateAssoc_cons (kv : Nat × Int) (rest : List (Nat × Int)) (k : Nat)
    (g : Int → Int) :
    updateAssoc (kv :: rest) k g
      = (if kv.1 = k then (kv.1, g kv.2) else kv) :: updateAssoc rest k g := rfl

theorem piterSum_updateAssoc {m : List (Nat × Int)} {k : Nat} (g : Int → Int)
    (hmem : k ∈ keysOf m) (hn : (keysOf m).Nodup) :
    ∃ v, alookup m k = some v
      ∧ piterSum (updateAssoc m k g) = piterSum m - v + g v := by
  induction m with
  | nil => simp [keysOf] at hmem
  | cons kv rest ih =>
    simp only [keysOf, List.map_cons, List.nodup_cons] at hn
    by_cases hk : kv.1 = k
    · refine ⟨kv.2, ?_, ?_⟩
      · rw [alookup_cons, if_pos hk]
      · have hrest : ¬ k ∈ keysOf rest := hk ▸ hn.1
        rw [updateAssoc_cons, if_pos hk, updateAssoc_not_mem g hrest,
          piterSum_cons, piterSum_cons]
        ring
    · have hmem2 : k ∈ keysOf rest := by
        simp only [keysOf, List.map_cons, List.mem_cons] at hmem
        rcases hmem with h1 | h1
        · exact absurd h1.symm hk
        · exact h1
      obtain ⟨v, hv, hsum⟩ := ih hmem2 hn.2
      refine ⟨v, ?_, ?_⟩
      · rw [alookup_cons, if_neg hk]
        exact hv
      · rw [updateAssoc_cons, if_neg hk, piterSum_cons, piterSum_cons, hsum]
        ring

theorem mem_keysOf_rescanPiter {files : List Nat} {p : List (Nat × Int)}
    {k : Nat} :
    k ∈ keysOf (rescanPiter files p) ↔ k ∈ keysOf p ∧ k ∈ files := by
  unfold keysOf rescanPiter
  rw [List.mem_map]
  constructor
  · rintro ⟨kv, hkv, rfl⟩
    have hm := List.mem_filter.mp hkv
    exact ⟨List.mem_map.mpr ⟨kv, hm.1, rfl⟩, by simpa using hm.2⟩
  · rintro ⟨h1, h2⟩
    obtain ⟨kv, hkv, rfl⟩ := List.mem_map.mp h1
    exact ⟨kv, List.mem_filter.mpr ⟨hkv, by simpa using h2⟩, rfl⟩

theorem mem_keysOf_eraseKey {β : Type} {p : List (Nat × β)} {f k : Nat} :
    k ∈ keysOf (eraseKey p f) ↔ k ∈ keysOf p ∧ k ≠ f := by
  unfold keysOf eraseKey
  rw [List.mem_map]
  constructor
  · rintro ⟨kv, hkv, rfl⟩
    have hm := List.mem_filter.mp hkv
    exact ⟨List.mem_map.mpr ⟨kv, hm.1, rfl⟩, by simpa using hm.2⟩
  · rintro ⟨h1, h2⟩
    obtain ⟨kv, hkv, rfl⟩ := List.mem_map.mp h1
    exact ⟨kv, List.mem_filter.mpr ⟨hkv, by simpa using h2⟩, rfl⟩

/-- Structural invariant of the generator: while reducing, every tracked
estimate key is either still queued or the active file; at the final yield
the estimate map and the queue are empty and the dirty flag is set; at
termination the estimate map is empty and the dirty flag is cleared. -/
def MachInv (m : Mach) : Prop :=
  match m.phase with
  | .reducing f _ => ∀ k ∈ keysOf m.st.piter, k ∈ m.st.queue ∨ k = f
  | .finalYield => m.st.piter = [] ∧ m.st.queue = [] ∧ m.st.dirty = true
  | .terminated => m.st.piter = [] ∧ m.st.dirty = false
  | .fatal => True

theorem machInv_nextFile {s : EngState}
    (h : ∀ k ∈ keysOf s.piter, k ∈ s.queue) : MachInv (nextFile s).1 := by
  cases hq : s.queue with
  | nil =>
    have hp : s.piter = [] := by
      cases hp2 : s.piter with
      | nil => rfl
      | cons kv rest =>
        exfalso
        have hk : kv.1 ∈ keysOf s.piter := by simp [hp2, keysOf]
        have hk2 := h kv.1 hk
        rw [hq] at hk2
        simp at hk2
    by_cases hd : s.dirty = true
    · simp only [nextFile, hq, if_pos hd]
      exact ⟨hp, hq, hd⟩
    · simp only [nextFile, hq, if_neg hd]
      exact ⟨hp, rfl⟩
  | cons g rest =>
    simp only [nextFile, hq]
    intro k hk
    have hk2 := h k hk
    rw [hq] at hk2
    rcases List.mem_cons.mp hk2 with h1 | h1
    · right
      exact h1
    · left
      exact h1

theorem machInv_stepCandidate (af : Bool) {m : Mach} (c : List Nat) (b : Bool)
    (sv : Option (List Nat)) (h : MachInv m) :
    MachInv (stepCandidate af m c b sv).1 := by
  obtain ⟨st, ph⟩ := m
  cases ph with
  | reducing f tl =>
    cases b with
    | false =>
      rw [stepCandidate_reject_eq af ⟨st, .reducing f tl⟩ f tl c sv rfl]
      refine fun k hk => ?_
      have hk2 : k ∈ keysOf (updateAssoc st.piter f (fun v => v - 1)) := hk
      rw [keysOf_updateAssoc] at hk2
      exact h k hk2
    | true =>
      cases sv with
      | none =>
        rw [stepCandidate_accept_none_eq af ⟨st, .reducing f tl⟩ f tl c rfl]
        refine fun k hk => ?_
        have hk2 : k ∈ keysOf (updateAssoc st.piter f
            (fun v => v - acceptDecrement tl c.length)) := hk
        rw [keysOf_updateAssoc] at hk2
        exact h k hk2
      | some svl =>
        rw [stepCandidate_accept_served_eq af ⟨st, .reducing f tl⟩ f tl c svl rfl]
        by_cases hf :
            f ∈ (servedStepCore af (acceptCore st f tl c) svl).filesToReduce
        · rw [if_pos hf]
          refine fun k hk => ?_
          have hk2 : k ∈ keysOf (rescanPiter
              (servedStepCore af (acceptCore st f tl c) svl).filesToReduce
              (updateAssoc st.piter f
                (fun v => v - acceptDecrement tl c.length))) := hk
          rw [mem_keysOf_rescanPiter, keysOf_updateAssoc] at hk2
          rcases h k hk2.1 with h1 | h1
          · left
            rw [mem_servedStepCore_queue]
            exact ⟨h1, hk2.2⟩
          · right
            exact h1
        · rw [if_neg hf]
          apply machInv_nextFile
          intro k hk
          have hk2 : k ∈ keysOf (eraseKey
              (servedStepCore af (acceptCore st f tl c) svl).piter f) := hk
          rw [mem_keysOf_eraseKey] at hk2
          obtain ⟨hk3, hkf⟩ := hk2
          have hk4 : k ∈ keysOf (rescanPiter
              (servedStepCore af (acceptCore st f tl c) svl).filesToReduce
              (updateAssoc st.piter f
                (fun v => v - acceptDecrement tl c.length))) := hk3
          rw [mem_keysOf_rescanPiter, keysOf_updateAssoc] at hk4
          rcases h k hk4.1 with h1 | h1
          · show k ∈ (servedStepCore af (acceptCore st f tl c) svl).queue
            rw [mem_servedStepCore_queue]
            exact ⟨h1, hk4.2⟩
          · exact absurd h1 hkf
  | finalYield => exact h
  | terminated => exact h
  | fatal => exact h

theorem machInv_stepExhausted {m : Mach} (best : List Nat) (h : MachInv m) :
    MachInv (stepExhausted m best).1 := by
  obtain ⟨st, ph⟩ := m
  cases ph with
  | reducing f tl =>
    apply machInv_nextFile
    intro k hk
    have hk2 : k ∈ keysOf (eraseKey st.piter f) := hk
    rw [mem_keysOf_eraseKey] at hk2
    rcases h k hk2.1 with h1 | h1
    · exact h1
    · exact absurd h1 hk2.2
  | finalYield => exact h
  | terminated => exact h
  | fatal => exact h

theorem machInv_stepFinal {m : Mach} (b : Bool) (h : MachInv m) :
    MachInv (stepFinal m b).1 := by
  obtain ⟨st, ph⟩ := m
  cases ph with
  | reducing f tl => exact h
  | finalYield =>
    cases b with
    | true => exact ⟨h.1, rfl⟩
    | false => trivial
  | terminated => exact h
  | fatal => exact h

theorem machInv_start (af : Bool) (root : List FsEntry) :
    MachInv (startIter (initEngine af root)).1 := by
  apply machInv_nextFile
  intro k hk
  have hk2 : k ∈ keysOf ((rescanList af root).map
      (fun p => (p, possible_iters (fileLen root p)))) := hk
  have hk3 : k ∈ rescanList af root := by
    unfold keysOf at hk2
    rw [List.map_map] at hk2
    simpa using hk2
  exact mem_sortNat.mpr hk3

theorem reachable_inv {af : Bool} {m : Mach} (h : Reachable af m) : MachInv m := by
  induction h with
  | start root => exact machInv_start af root
  | cand c b sv h ih => exact machInv_stepCandidate af c b sv ih
  | exh best h ih => exact machInv_stepExhausted best ih
  | fin b h ih => exact machInv_stepFinal b ih

/-- `exRootA`'s machine after the purge of file 11 set the dirty flag, and
after a further accepted candidate. -/
def exMach6b : Mach := (stepCandidate true exMachA [0, 1] true (some [10])).1

def exMach6c : Mach := (stepCandidate true exMach6b [0] true none).1

/-- C6 counterexample: after a purge has set the dirty flag, the next
accepted candidate decreases `__len__` by the accept decrement *plus 1*
(clearing the dirty flag), not by exactly the per-step decrement: here the
estimate drops by 2 but `__len__` drops from 7 to 4. -/
theorem remaining_attempts_counterexample :
    Reachable true exMach6b
    ∧ exMach6b.st.dirty = true
    ∧ exMach6b.phase = Phase.reducing 10 2
    ∧ acceptDecrement 2 1 = 2
    ∧ engLen exMach6b.st = 7
    ∧ engLen exMach6c.st = 4
    ∧ engLen exMach6b.st - engLen exMach6c.st ≠ acceptDecrement 2 1 :=
  ⟨Reachable.cand [0, 1] true (some [10]) (Reachable.start exRootA),
   by decide, by decide, by decide, by decide, by decide, by decide⟩

/-- C6 (amended): `__len__` always equals the sum of the per-file estimates
plus 1 when the dirty flag is set; a rejection decreases it by exactly 1; an
acceptance without a served list decreases it by exactly the accept
decrement plus 1 when the dirty flag had been set; every reachable
`finalYield` state (queue drained, dirty flag still set) has `__len__ = 1`;
and every reachable terminated state (queue drained, dirty flag cleared)
has `__len__ = 0`. -/
theorem remaining_attempts_spec (af : Bool) (m : Mach) (f tl : Nat)
    (c : List Nat) (sv : Option (List Nat)) (m2 : Mach)
    (hph : m.phase = .reducing f tl)
    (hmem : f ∈ keysOf m.st.piter) (hn : (keysOf m.st.piter).Nodup)
    (hr : Reachable af m2) :
    (∀ s : EngState, engLen s
        = (s.piter.map (fun kv => kv.2)).sum + (if s.dirty then 1 else 0))
    ∧ engLen (stepCandidate af m c false sv).1.st = engLen m.st - 1
    ∧ engLen (stepCandidate af m c true none).1.st
        = engLen m.st - acceptDecrement tl c.length
          - (if m.st.dirty then 1 else 0)
    ∧ (m2.phase = .finalYield → engLen m2.st = 1)
    ∧ (m2.phase = .terminated → engLen m2.st = 0) := by
  have hinv := reachable_inv hr
  refine ⟨fun s => rfl, ?_, ?_, ?_, ?_⟩
  · obtain ⟨v, hv, hsum⟩ := piterSum_updateAssoc (fun v => v - 1) hmem hn
    rw [stepCandidate_reject_eq af m f tl c sv hph]
    show piterSum (updateAssoc m.st.piter f (fun v => v - 1))
        + (if m.st.dirty then 1 else 0) = _
    rw [hsum]
    show _ = piterSum m.st.piter + (if m.st.dirty then 1 else 0) - 1
    generalize (if m.st.dirty then (1 : Int) else 0) = B
    ring
  · obtain ⟨v, hv, hsum⟩ :=
      piterSum_updateAssoc (fun v => v - acceptDecrement tl c.length) hmem hn
    rw [stepCandidate_accept_none_eq af m f tl c hph]
    show piterSum (updateAssoc m.st.piter f
        (fun v => v - acceptDecrement tl c.length)) + (if False then 1 else 0) = _
    rw [hsum]
    show _ = piterSum m.st.piter + (if m.st.dirty then 1 else 0)
        - acceptDecrement tl c.length - (if m.st.dirty then 1 else 0)
    generalize (if m.st.dirty then (1 : Int) else 0) = B
    simp only [if_neg (fun hc : False => hc)]
    ring
  · intro hph2
    obtain ⟨st2, ph2⟩ := m2
    dsimp only at hph2
    subst hph2
    obtain ⟨hp, hq, hd⟩ := hinv
    dsimp only at hp hd
    simp [engLen, piterSum, hp, hd]
  · intro hph2
    obtain ⟨st2, ph2⟩ := m2
    dsimp only at hph2
    subst hph2
    obtain ⟨hp, hd⟩ := hinv
    dsimp only at hp hd
    simp [engLen, piterSum, hp, hd]

/-- A reachable terminated machine over `exRoot2`. -/
def exMach6t : Mach := (stepExhausted exMach2 [9]).1

theorem remaining_attempts_spec_witness :
    engLen (stepCandidate true exMach2 [8] false none).1.st
      = engLen exMach2.st - 1
    ∧ (exMach6t.phase = Phase.terminated → engLen exMach6t.st = 0)
    ∧ engLen exMach2.st = 4
    ∧ exMach6t.phase = Phase.terminated
    ∧ engLen exMach6t.st = 0 :=
  ⟨(remaining_attempts_spec true exMach2 0 2 [8] none exMach6t (by decide)
      (by decide) (by decide) (Reachable.exh [9] (Reachable.start exRoot2))).2.1,
   (remaining_attempts_spec true exMach2 0 2 [8] none exMach6t (by decide)
      (by decide) (by decide) (Reachable.exh [9] (Reachable.start exRoot2))).2.2.2.2,
   by decide, by decide, by decide⟩
